import Mathlib

/-!
Verification development for the PyElispotAnalysis repository
(`modules.py` and `PyElispotAnalysis_StreamlitApp.py`).

Images are shallowly embedded as lists of rows of pixel values
(`Grid α := List (List α)`); `uint8` pixels are natural numbers in
`0..255`, float arrays are modelled over `ℚ` (NumPy's float64 is exact at
every value a claim inspects; divisions by zero, which in NumPy produce
NaN values with a warning, are tracked by explicit `…_ok` flags stating
that the denominator `max - min` is nonzero).

Calls into external libraries whose output is a floating-point raster
(`cv2.GaussianBlur` inside `adaptiveThreshold`, `cv2.resize`,
`cv2.circle`, the float `sqrt` behind `region.equivalent_diameter`) are
modelled as explicit function parameters ("oracles"); every theorem below
quantifies over them, so no proof depends on their values.  Everything
else — the threshold comparison, the min/max normalisations, morphological
opening with a flat 5×5 kernel, connected-component labelling with
8-connectivity, the region-area filter and the spot counter — is embedded
concretely from the source.
-/

/-- A raster image: a list of rows of pixel values. -/
abbrev Grid (α : Type) : Type := List (List α)

/-- A 3-channel colour image, as produced by `cv2.cvtColor(..., COLOR_GRAY2RGB)`. -/
abbrev RGB : Type := Grid (ℕ × ℕ × ℕ)

/-- Number of rows of a grid (NumPy `shape[0]`). -/
def rows {α : Type} (g : Grid α) : ℕ := g.length

/-- Number of columns of a grid (NumPy `shape[1]`; for the rectangular
arrays NumPy produces this is the common row length, taken here as the
maximum row length so that the definition is total on ragged lists). -/
def cols {α : Type} (g : Grid α) : ℕ := (g.map List.length).foldr max 0

/-- Pixel lookup with a default value outside the grid. -/
def getPix {α : Type} (g : Grid α) (d : α) (p : ℕ × ℕ) : α :=
  (g.getD p.1 []).getD p.2 d

/-- A position that actually indexes into the grid. -/
def inBounds {α : Type} (g : Grid α) (p : ℕ × ℕ) : Prop :=
  p.1 < g.length ∧ p.2 < (g.getD p.1 []).length

instance {α : Type} (g : Grid α) (p : ℕ × ℕ) : Decidable (inBounds g p) := by
  unfold inBounds; infer_instance

/-- All in-bounds positions of a grid, in raster-scan order. -/
def allPos {α : Type} (g : Grid α) : List (ℕ × ℕ) :=
  (List.range g.length).flatMap fun i =>
    (List.range ((g.getD i []).length)).map fun j => (i, j)

/-! Embedding of `counts_spots` (modules.py lines 92-132).

`regionprops(labeled_image)` yields one region per positive label value
present in the array, in increasing label order; `region.area` is the
number of pixels carrying that label and `region.centroid` the mean of
their coordinates (the Python `int(...)` truncation of the float mean
coincides with natural-number division for the image sizes the app
accepts).  `region.equivalent_diameter` is a float `sqrt(4*area/pi)`;
the resulting circle radius is abstracted as the oracle `rad` applied to
the region's area.  `cv2.circle` is abstracted as the oracle `paint`,
applied to the destination image, centre, radius and colour. -/

/-- Coordinates of the pixels carrying label `l` (`region.coords`). -/
def coordsOf (L : Grid ℕ) (l : ℕ) : List (ℕ × ℕ) :=
  (allPos L).filter fun p => getPix L 0 p = l

/-- Pixel area of the region labelled `l` (`region.area`). -/
def areaOf (L : Grid ℕ) (l : ℕ) : ℕ := (coordsOf L l).length

/-- Largest label value present in a labelled image. -/
def maxLabel (L : Grid ℕ) : ℕ := L.flatten.foldr max 0

/-- The labels `regionprops` iterates over: the positive labels that are
present in the image, in increasing order. -/
def regionLabels (L : Grid ℕ) : List ℕ :=
  ((List.range (maxLabel L)).map (· + 1)).filter fun l => 0 < areaOf L l

/-- Row coordinate of a region's centroid, truncated to an integer
(`y0` of `map(int, region.centroid)`). -/
def centroidRow (L : Grid ℕ) (l : ℕ) : ℕ :=
  ((coordsOf L l).map Prod.fst).sum / areaOf L l

/-- Column coordinate of a region's centroid, truncated to an integer
(`x0` of `map(int, region.centroid)`). -/
def centroidCol (L : Grid ℕ) (l : ℕ) : ℕ :=
  ((coordsOf L l).map Prod.snd).sum / areaOf L l

/-- The circle colour: entry 1 of the `tab10` colormap (`#ff7f0e`),
scaled to `0..255` per channel (modules.py lines 107-109). -/
def scaled_rgb : ℕ × ℕ × ℕ := (255, 127, 14)

/-- Embedding of `cv2.cvtColor(gray, COLOR_GRAY2RGB)`: a fresh 3-channel copy that
replicates the grey value into each channel. -/
def cvtColor (g : Grid ℕ) : RGB := g.map (List.map fun v => (v, v, v))

/-- The arrays `counts_spots` can touch: its two image arguments and the
colour copy it allocates.  Threading this record through the loop records
which of the three arrays each statement writes. -/
structure CsHeap where
  labeled_image : Grid ℕ
  grayscale_parent_image : Grid ℕ
  circled_image : RGB

/-- The area-filter guard of the loop (modules.py line 120):
`min_area <= region.area <= max_area`, both comparisons inclusive. -/
def inRangeB (L : Grid ℕ) (min_area max_area : ℤ) (l : ℕ) : Bool :=
  decide (min_area ≤ (areaOf L l : ℤ) ∧ (areaOf L l : ℤ) ≤ max_area)

/-- One iteration of the `for region in regionprops(labeled_image)` loop
(modules.py lines 118-130): if the region's area lies in the inclusive
range, draw a circle on `circled_image` and increment the counter.  The
accumulator also records the list of labels whose circle has been drawn. -/
def spotStep (rad : ℕ → ℕ) (paint : RGB → ℕ × ℕ → ℕ → ℕ × ℕ × ℕ → RGB)
    (min_area max_area : ℤ) (acc : CsHeap × ℕ × List ℕ) (l : ℕ) :
    CsHeap × ℕ × List ℕ :=
  let h := acc.1
  let a := areaOf h.labeled_image l
  if min_area ≤ (a : ℤ) ∧ (a : ℤ) ≤ max_area then
    let y0 := centroidRow h.labeled_image l
    let x0 := centroidCol h.labeled_image l
    let r := rad a
    (⟨h.labeled_image, h.grayscale_parent_image,
       paint h.circled_image (x0, y0) r scaled_rgb⟩,
     acc.2.1 + 1, acc.2.2 ++ [l])
  else acc

/-- The whole loop of `counts_spots`, threading the heap of arrays: the
colour copy is allocated by `cvtColor`, the counter starts at `0`. -/
def counts_spots_run (rad : ℕ → ℕ) (paint : RGB → ℕ × ℕ → ℕ → ℕ × ℕ × ℕ → RGB)
    (labeled_image grayscale_parent_image : Grid ℕ) (min_area max_area : ℤ) :
    CsHeap × ℕ × List ℕ :=
  (regionLabels labeled_image).foldl (spotStep rad paint min_area max_area)
    (⟨labeled_image, grayscale_parent_image, cvtColor grayscale_parent_image⟩, 0, [])

/-- The function `counts_spots` (modules.py line 132): returns the circled image and the
spot count — a pair, nothing else. -/
def counts_spots (rad : ℕ → ℕ) (paint : RGB → ℕ × ℕ → ℕ → ℕ × ℕ × ℕ → RGB)
    (labeled_image grayscale_parent_image : Grid ℕ) (min_area max_area : ℤ) :
    RGB × ℕ :=
  let r := counts_spots_run rad paint labeled_image grayscale_parent_image min_area max_area
  (r.1.circled_image, r.2.1)

/-- The labels whose circle was drawn during the loop. -/
def drawnLabels (rad : ℕ → ℕ) (paint : RGB → ℕ × ℕ → ℕ → ℕ × ℕ × ℕ → RGB)
    (labeled_image grayscale_parent_image : Grid ℕ) (min_area max_area : ℤ) :
    List ℕ :=
  (counts_spots_run rad paint labeled_image grayscale_parent_image min_area max_area).2.2

/-- The effect of one loop iteration on the circled image alone: a `paint`
call when the region passes the area filter, nothing otherwise. -/
def circStep (rad : ℕ → ℕ) (paint : RGB → ℕ × ℕ → ℕ → ℕ × ℕ × ℕ → RGB)
    (min_area max_area : ℤ) (L : Grid ℕ) (cc : RGB) (l : ℕ) : RGB :=
  if min_area ≤ (areaOf L l : ℤ) ∧ (areaOf L l : ℤ) ≤ max_area then
    paint cc (centroidCol L l, centroidRow L l) (rad (areaOf L l)) scaled_rgb
  else cc

/-- Unfolding of the loop of `counts_spots` over any label list: the two
input arrays are never written, the drawn labels are exactly the labels
passing the inclusive area filter, the counter advances by their number,
and the circled image is obtained from the initial colour copy by `paint`
calls alone. -/
theorem foldl_spotStep_spec (rad : ℕ → ℕ) (paint : RGB → ℕ × ℕ → ℕ → ℕ × ℕ × ℕ → RGB)
    (min_area max_area : ℤ) (L G : Grid ℕ) :
    ∀ (ls : List ℕ) (c : RGB) (n : ℕ) (ds : List ℕ),
      ls.foldl (spotStep rad paint min_area max_area) (⟨L, G, c⟩, n, ds) =
        (⟨L, G, ls.foldl (circStep rad paint min_area max_area L) c⟩,
         n + (ls.filter (inRangeB L min_area max_area)).length,
         ds ++ ls.filter (inRangeB L min_area max_area)) := by
  intro ls
  induction ls with
  | nil => intro c n ds; simp
  | cons l t ih =>
    intro c n ds
    rw [List.foldl_cons, List.foldl_cons]
    by_cases h : min_area ≤ (areaOf L l : ℤ) ∧ (areaOf L l : ℤ) ≤ max_area
    · have hb : inRangeB L min_area max_area l = true := by
        simp [inRangeB, h]
      have hs : spotStep rad paint min_area max_area (⟨L, G, c⟩, n, ds) l =
          (⟨L, G, circStep rad paint min_area max_area L c l⟩, n + 1, ds ++ [l]) := by
        simp [spotStep, circStep, if_pos h]
      rw [hs, ih, List.filter_cons_of_pos hb]
      simp only [Prod.mk.injEq, List.length_cons]
      exact ⟨by simp, by omega, by simp⟩
    · have hb : ¬ inRangeB L min_area max_area l = true := by
        simp [inRangeB, h]
      have hs : spotStep rad paint min_area max_area (⟨L, G, c⟩, n, ds) l =
          (⟨L, G, c⟩, n, ds) := by
        simp [spotStep, if_neg h]
      have hc : circStep rad paint min_area max_area L c l = c := by
        simp [circStep, if_neg h]
      rw [hs, hc, ih, List.filter_cons_of_neg hb]

/-- Claim C1: for every labelled image and every integer bounds pair,
`counts_spots` keeps a region — draws its circle and counts it — if and
only if the region's pixel area `a` satisfies
`min_area ≤ a ≤ max_area`, both bounds inclusive; and the returned count
is exactly the number of circles drawn. -/
theorem counts_spots_keeps_iff_area_in_range (rad : ℕ → ℕ)
    (paint : RGB → ℕ × ℕ → ℕ → ℕ × ℕ × ℕ → RGB)
    (L G : Grid ℕ) (min_area max_area : ℤ) (l : ℕ) :
    (l ∈ drawnLabels rad paint L G min_area max_area ↔
      l ∈ regionLabels L ∧ min_area ≤ (areaOf L l : ℤ) ∧ (areaOf L l : ℤ) ≤ max_area)
    ∧ (counts_spots rad paint L G min_area max_area).2 =
        (drawnLabels rad paint L G min_area max_area).length := by
  have h := foldl_spotStep_spec rad paint min_area max_area L G
    (regionLabels L) (cvtColor G) 0 []
  constructor
  · simp [drawnLabels, counts_spots_run, h, List.mem_filter, inRangeB]
  · simp [counts_spots, drawnLabels, counts_spots_run, h]

/-- Claim C2: for every labelled image and bounds, the count returned by
`counts_spots` equals the number of labelled regions whose area lies in
the inclusive range `[min_area, max_area]`, i.e. the number of regions
surviving the area filter. -/
theorem counts_spots_count_eq_surviving (rad : ℕ → ℕ)
    (paint : RGB → ℕ × ℕ → ℕ → ℕ × ℕ × ℕ → RGB)
    (L G : Grid ℕ) (min_area max_area : ℤ) :
    (counts_spots rad paint L G min_area max_area).2 =
      ((regionLabels L).filter (inRangeB L min_area max_area)).length := by
  have h := foldl_spotStep_spec rad paint min_area max_area L G
    (regionLabels L) (cvtColor G) 0 []
  simp [counts_spots, counts_spots_run, h]

/-- Claim C9: `counts_spots` leaves both of its image inputs unchanged —
after the loop the labelled image and the grayscale parent image held in
the heap are the ones passed in — and the returned circled image is built
from the freshly allocated RGB copy `cvtColor grayscale_parent_image` by
`paint` (`cv2.circle`) calls alone. -/
theorem counts_spots_preserves_inputs (rad : ℕ → ℕ)
    (paint : RGB → ℕ × ℕ → ℕ → ℕ × ℕ × ℕ → RGB)
    (L G : Grid ℕ) (min_area max_area : ℤ) :
    (counts_spots_run rad paint L G min_area max_area).1.labeled_image = L ∧
    (counts_spots_run rad paint L G min_area max_area).1.grayscale_parent_image = G ∧
    (counts_spots rad paint L G min_area max_area).1 =
      (regionLabels L).foldl (circStep rad paint min_area max_area L) (cvtColor G) := by
  have h := foldl_spotStep_spec rad paint min_area max_area L G
    (regionLabels L) (cvtColor G) 0 []
  refine ⟨?_, ?_, ?_⟩ <;> simp [counts_spots, counts_spots_run, h]

/-- Filter with a weaker predicate keeps at least as many elements. -/
theorem filter_length_mono {α : Type} (p q : α → Bool)
    (h : ∀ a, p a = true → q a = true) :
    ∀ l : List α, (l.filter p).length ≤ (l.filter q).length := by
  intro l
  induction l with
  | nil => simp
  | cons a t ih =>
    by_cases hp : p a = true
    · simp [List.filter_cons, hp, h a hp]; omega
    · simp only [List.filter_cons]
      by_cases hq : q a = true <;> simp [hp, hq] <;> omega

/-- Claim C10: for a fixed labelled image and parent image the count
returned by `counts_spots` is monotone in the area range: widening the
inclusive range can only keep more regions. -/
theorem counts_spots_count_monotone (rad rad' : ℕ → ℕ)
    (paint paint' : RGB → ℕ × ℕ → ℕ → ℕ × ℕ × ℕ → RGB)
    (L G : Grid ℕ) (mn mx mn' mx' : ℤ)
    (h1 : mn' ≤ mn) (h2 : mx ≤ mx') :
    (counts_spots rad paint L G mn mx).2 ≤ (counts_spots rad' paint' L G mn' mx').2 := by
  rw [counts_spots_count_eq_surviving, counts_spots_count_eq_surviving]
  refine filter_length_mono _ _ ?_ _
  intro a ha
  simp only [inRangeB, decide_eq_true_eq] at ha ⊢
  omega

/-- Witness for C10 at a concrete input: the range `[1,1]` is contained in
`[0,2]`, and the counts compare accordingly. -/
theorem counts_spots_count_monotone_witness :
    (1 : ℤ) ≥ 0 ∧ (1 : ℤ) ≤ 2 ∧
    (counts_spots (fun _ => 0) (fun i _ _ _ => i) [[1]] [[5]] 1 1).2 ≤
      (counts_spots (fun _ => 0) (fun i _ _ _ => i) [[1]] [[5]] 0 2).2 :=
  ⟨by decide, by decide,
    counts_spots_count_monotone (fun _ => 0) (fun _ => 0)
      (fun i _ _ _ => i) (fun i _ _ _ => i) [[1]] [[5]] 1 1 0 2
      (by decide) (by decide)⟩

/-! The value returned by `counts_spots`, as the app consumes it.

`modules.py` line 132 returns the 2-tuple `(circled_image, counter)`.
`PyElispotAnalysis_StreamlitApp.py` line 175 executes
`circled_image, counter, filtered_labelled_image = counts_spots(...)`,
a 3-way unpacking; Python tuple unpacking of an `n`-tuple into `m`
targets succeeds exactly when `n = m`. -/

/-- A Python value as it appears in `counts_spots`'s returned tuple. -/
inductive PyVal : Type
  | arr (g : RGB)
  | num (n : ℕ)

/-- The tuple value `return circled_image, counter` builds (modules.py
line 132), as a list of Python values. -/
def counts_spots_ret (rad : ℕ → ℕ) (paint : RGB → ℕ × ℕ → ℕ → ℕ × ℕ × ℕ → RGB)
    (L G : Grid ℕ) (min_area max_area : ℤ) : List PyVal :=
  [PyVal.arr (counts_spots rad paint L G min_area max_area).1,
   PyVal.num (counts_spots rad paint L G min_area max_area).2]

/-- Python's 3-target tuple unpacking (app line 175): succeeds only on a
3-element tuple. -/
def unpack3 (vs : List PyVal) : Option (PyVal × PyVal × PyVal) :=
  match vs with
  | [a, b, c] => some (a, b, c)
  | _ => none

/-- Claim C4 (code bug): at a concrete accepted input, the unpacking at app
line 175 of the 2-tuple returned by `counts_spots` fails, so the
Filter/Reporter stage never reaches the point of emitting its outputs. -/
theorem app_unpack_of_counts_spots_fails :
    unpack3 (counts_spots_ret (fun _ => 0) (fun i _ _ _ => i) [[1]] [[5]] 0 10) = none :=
  rfl

/-! Embeddings of `read_image` (modules.py lines 50-67) and
`make_segmented_image` (modules.py lines 71-88)

Both functions normalise an array by `(a - a.min()) / (a.max() - a.min())`.
NumPy evaluates this in float64; the rational model below is exact at the
extremal pixels (where the quotient is exactly `0` or `1`) and stays inside
the same unit interval everywhere, which is all any claim inspects.  When
`max = min` NumPy emits a division-by-zero warning and produces NaN values;
the `…_ok` flags below record that the denominator is nonzero, and no
theorem constrains the junk values the rational model produces otherwise. -/

/-- Scalar `a.min()` of the pixels of a grid (0 on an empty grid, a case
NumPy rejects at runtime). -/
def joinMin (g : Grid ℕ) : ℕ := g.flatten.min?.getD 0

/-- Scalar `a.max()` of the pixels of a grid. -/
def joinMax (g : Grid ℕ) : ℕ := g.flatten.max?.getD 0

/-- The loader `read_image` (modules.py lines 61-67) after decoding: per-pixel
`(v - min) / (max - min) * 255`, cast to `uint8` by truncation toward
zero.  The decoded grayscale array itself is the function's input here;
`PIL.Image.open(...).convert('L')` is external decoding. -/
def read_image (img : Grid ℕ) : Grid ℕ :=
  img.map (List.map fun (v : ℕ) =>
    (⌊((v : ℚ) - (joinMin img : ℚ)) / ((joinMax img : ℚ) - (joinMin img : ℚ)) * 255⌋).toNat)

/-- Whether the normalisation in `read_image` divides by a nonzero
`max - min` (line 64). -/
def read_image_ok (img : Grid ℕ) : Bool := decide (joinMin img ≠ joinMax img)

/-- A grid of height `h`, row `i` of width `wf i`, pixel `p` holding `f p`. -/
def mkGrid {α : Type} (h : ℕ) (wf : ℕ → ℕ) (f : ℕ × ℕ → α) : Grid α :=
  (List.range h).map fun i => (List.range (wf i)).map fun j => f (i, j)

/-- Embedding of `cv2.adaptiveThreshold(src, maxValue, ADAPTIVE_THRESH_GAUSSIAN_C,
THRESH_BINARY, blockSize, C)`: each output pixel is `maxValue` when the
source pixel strictly exceeds the Gaussian-weighted local mean minus `C`,
else `0`.  The blurred uint8 mean raster — OpenCV's `GaussianBlur` over
the `blockSize × blockSize` replicated-border window, a floating-point
computation of the external library — is the explicit parameter
`blurred`. -/
def adaptiveThreshold (src : Grid ℕ) (maxValue : ℕ) (blurred : ℕ × ℕ → ℕ) (C : ℤ) :
    Grid ℕ :=
  mkGrid src.length (fun i => (src.getD i []).length) fun p =>
    if (blurred p : ℤ) - C < ((getPix src 0 p : ℕ) : ℤ) then maxValue else 0

/-- The segmenter `make_segmented_image` (modules.py lines 85-88): adaptive thresholding
with `maxValue = 255`, followed by the `(a - min) / (max - min)`
normalisation of line 86, yielding a float image.  `blur BlockSize` is the
external Gaussian local-mean raster for the given block size. -/
def make_segmented_image (blur : ℕ → ℕ × ℕ → ℕ) (grayscaleimage : Grid ℕ)
    (BlockSize : ℕ) (Constant : ℤ) : Grid ℚ :=
  let seg := adaptiveThreshold grayscaleimage 255 (blur BlockSize) Constant
  seg.map (List.map fun (v : ℕ) =>
    ((v : ℚ) - (joinMin seg : ℚ)) / ((joinMax seg : ℚ) - (joinMin seg : ℚ)))

/-- Whether the normalisation in `make_segmented_image` (line 86) divides
by a nonzero `max - min` of the thresholded image. -/
def make_segmented_ok (blur : ℕ → ℕ × ℕ → ℕ) (grayscaleimage : Grid ℕ)
    (BlockSize : ℕ) (Constant : ℤ) : Bool :=
  let seg := adaptiveThreshold grayscaleimage 255 (blur BlockSize) Constant
  decide (joinMin seg ≠ joinMax seg)

/-- On naturals, `List.min?` is the least member. -/
theorem natMin?_eq_some_iff {a : ℕ} {xs : List ℕ} :
    xs.min? = some a ↔ a ∈ xs ∧ ∀ b ∈ xs, a ≤ b :=
  List.min?_eq_some_iff (fun _ => le_refl _) (fun x y => min_choice x y)
    (fun _ _ _ => le_min_iff)

/-- On naturals, `List.max?` is the greatest member. -/
theorem natMax?_eq_some_iff {a : ℕ} {xs : List ℕ} :
    xs.max? = some a ↔ a ∈ xs ∧ ∀ b ∈ xs, b ≤ a :=
  List.max?_eq_some_iff (fun _ => le_refl _) (fun x y => max_choice x y)
    (fun _ _ _ => max_le_iff)

/-- On a nonempty pixel list, `joinMin` is the least pixel value. -/
theorem joinMin_spec (g : Grid ℕ) (hne : g.flatten ≠ []) :
    joinMin g ∈ g.flatten ∧ ∀ v ∈ g.flatten, joinMin g ≤ v := by
  obtain ⟨v0, hv0⟩ := List.exists_mem_of_ne_nil _ hne
  have hs := List.isSome_min?_of_mem hv0
  obtain ⟨a, ha⟩ := Option.isSome_iff_exists.mp hs
  have := natMin?_eq_some_iff.mp ha
  simpa [joinMin, ha] using this

/-- On a nonempty pixel list, `joinMax` is the greatest pixel value. -/
theorem joinMax_spec (g : Grid ℕ) (hne : g.flatten ≠ []) :
    joinMax g ∈ g.flatten ∧ ∀ v ∈ g.flatten, v ≤ joinMax g := by
  obtain ⟨v0, hv0⟩ := List.exists_mem_of_ne_nil _ hne
  have hs := List.isSome_max?_of_mem hv0
  obtain ⟨a, ha⟩ := Option.isSome_iff_exists.mp hs
  have := natMax?_eq_some_iff.mp ha
  simpa [joinMax, ha] using this

/-- The `min` scalar and the `max` scalar of a pixel list coincide exactly
when all pixels are equal. -/
theorem minD_eq_maxD_iff (l : List ℕ) :
    l.min?.getD 0 = l.max?.getD 0 ↔ ∀ v ∈ l, ∀ w ∈ l, v = w := by
  cases hl : l with
  | nil => simp
  | cons x t =>
    have hne : l ≠ [] := by simp [hl]
    rw [← hl]
    obtain ⟨v0, hv0⟩ := List.exists_mem_of_ne_nil _ hne
    obtain ⟨a, ha⟩ := Option.isSome_iff_exists.mp (List.isSome_min?_of_mem hv0)
    obtain ⟨b, hb⟩ := Option.isSome_iff_exists.mp (List.isSome_max?_of_mem hv0)
    have hamem := natMin?_eq_some_iff.mp ha
    have hbmem := natMax?_eq_some_iff.mp hb
    rw [ha, hb]
    simp only [Option.getD_some]
    constructor
    · intro hab v hv w hw
      have h1 : a ≤ v := hamem.2 v hv
      have h2 : v ≤ b := hbmem.2 v hv
      have h3 : a ≤ w := hamem.2 w hw
      have h4 : w ≤ b := hbmem.2 w hw
      omega
    · intro hall
      exact hall a hamem.1 b hbmem.1

/-- Claim C8: `read_image` divides by `max - min` of the decoded pixels, so
the normalisation divides by zero exactly on a constant-intensity image;
likewise `make_segmented_image` divides by `max - min` of the thresholded
image, which is zero exactly when all thresholded pixels are equal. -/
theorem normalizations_divide_by_zero_iff_constant (img : Grid ℕ)
    (blur : ℕ → ℕ × ℕ → ℕ) (g : Grid ℕ) (BlockSize : ℕ) (Constant : ℤ) :
    (read_image_ok img = false ↔ ∀ v ∈ img.flatten, ∀ w ∈ img.flatten, v = w) ∧
    (make_segmented_ok blur g BlockSize Constant = false ↔
      ∀ v ∈ (adaptiveThreshold g 255 (blur BlockSize) Constant).flatten,
        ∀ w ∈ (adaptiveThreshold g 255 (blur BlockSize) Constant).flatten, v = w) := by
  constructor
  · rw [← minD_eq_maxD_iff]
    simp [read_image_ok, joinMin, joinMax]
  · rw [← minD_eq_maxD_iff]
    simp [make_segmented_ok, joinMin, joinMax]

/-- Witness for C8 at concrete inputs: a constant decoded image makes
`read_image` divide by zero, and a constant thresholded image (here: a
constant image whose every pixel exceeds the offset local mean) makes
`make_segmented_image` divide by zero. -/
theorem normalizations_divide_by_zero_witness :
    read_image_ok [[3, 3], [3, 3]] = false ∧
    make_segmented_ok (fun _ _ => 7) [[7, 7], [7, 7]] 3 2 = false :=
  ⟨((normalizations_divide_by_zero_iff_constant [[3, 3], [3, 3]]
      (fun _ _ => 7) [[7, 7], [7, 7]] 3 2).1).mpr (by decide),
   ((normalizations_divide_by_zero_iff_constant [[3, 3], [3, 3]]
      (fun _ _ => 7) [[7, 7], [7, 7]] 3 2).2).mpr (by decide)⟩

/-! Pixel-access lemmas. -/

/-- A `mkGrid` has the requested height. -/
theorem length_mkGrid {α : Type} (h : ℕ) (wf : ℕ → ℕ) (f : ℕ × ℕ → α) :
    (mkGrid h wf f).length = h := by simp [mkGrid]

/-- Row `i` of a `mkGrid`. -/
theorem getD_mkGrid {α : Type} (h : ℕ) (wf : ℕ → ℕ) (f : ℕ × ℕ → α) (i : ℕ)
    (hi : i < h) :
    (mkGrid h wf f).getD i [] = (List.range (wf i)).map fun j => f (i, j) := by
  simp [mkGrid, List.getD_eq_getElem?_getD, List.getElem?_map, List.getElem?_range, hi]

/-- Pixel lookup in a `mkGrid` at an in-bounds position. -/
theorem getPix_mkGrid {α : Type} (h : ℕ) (wf : ℕ → ℕ) (f : ℕ × ℕ → α) (d : α)
    (p : ℕ × ℕ) (hi : p.1 < h) (hj : p.2 < wf p.1) :
    getPix (mkGrid h wf f) d p = f p := by
  obtain ⟨i, j⟩ := p
  simp only [getPix, getD_mkGrid h wf f i hi]
  simp [List.getD_eq_getElem?_getD, List.getElem?_map, List.getElem?_range, hj]

/-- Pixel lookup commutes with an elementwise map at an in-bounds position. -/
theorem getPix_map_map {α β : Type} (f : α → β) (g : Grid α) (d : α) (d' : β)
    (p : ℕ × ℕ) (hp : inBounds g p) :
    getPix (g.map (List.map f)) d' p = f (getPix g d p) := by
  obtain ⟨hi, hj⟩ := hp
  have hi' : p.1 < (g.map (List.map f)).length := by simpa using hi
  unfold getPix
  rw [List.getD_eq_getElem g [] hi, List.getD_eq_getElem _ [] hi', List.getElem_map]
  have hj' : p.2 < (g[p.1]).length := by
    rw [← List.getD_eq_getElem g [] hi]; exact hj
  rw [List.getD_eq_getElem _ d hj', List.getD_eq_getElem _ d' (by simpa using hj'),
    List.getElem_map]

/-- Every pixel of a `mkGrid` is a value of its generating function. -/
theorem mem_flatten_mkGrid {α : Type} (h : ℕ) (wf : ℕ → ℕ) (f : ℕ × ℕ → α) (v : α)
    (hv : v ∈ (mkGrid h wf f).flatten) : ∃ p : ℕ × ℕ, v = f p := by
  rw [List.mem_flatten] at hv
  obtain ⟨row, hrow, hvr⟩ := hv
  simp only [mkGrid, List.mem_map, List.mem_range] at hrow
  obtain ⟨i, _, rfl⟩ := hrow
  simp only [List.mem_map, List.mem_range] at hvr
  obtain ⟨j, _, rfl⟩ := hvr
  exact ⟨(i, j), rfl⟩

/-- Thresholded pixels are `0` or `255`. -/
theorem adaptiveThreshold_vals (src : Grid ℕ) (blurred : ℕ × ℕ → ℕ) (C : ℤ) (v : ℕ)
    (hv : v ∈ (adaptiveThreshold src 255 blurred C).flatten) : v = 0 ∨ v = 255 := by
  unfold adaptiveThreshold at hv
  obtain ⟨p, rfl⟩ := mem_flatten_mkGrid _ _ _ _ hv
  by_cases hc : (blurred p : ℤ) - C < ((getPix src 0 p : ℕ) : ℤ) <;> simp [hc]

/-- When the thresholded image is not constant, its `min` is `0` and its
`max` is `255`. -/
theorem seg_min_max (src : Grid ℕ) (blurred : ℕ × ℕ → ℕ) (C : ℤ)
    (hok : joinMin (adaptiveThreshold src 255 blurred C) ≠
           joinMax (adaptiveThreshold src 255 blurred C)) :
    joinMin (adaptiveThreshold src 255 blurred C) = 0 ∧
    joinMax (adaptiveThreshold src 255 blurred C) = 255 := by
  have hne : (adaptiveThreshold src 255 blurred C).flatten ≠ [] := by
    intro h
    exact hok (by simp [joinMin, joinMax, h])
  have hmin := joinMin_spec _ hne
  have hmax := joinMax_spec _ hne
  have h1 := adaptiveThreshold_vals src blurred C _ hmin.1
  have h2 := adaptiveThreshold_vals src blurred C _ hmax.1
  have hle := hmax.2 _ hmin.1
  rcases h1 with h1 | h1 <;> rcases h2 with h2 | h2 <;> omega

/-- Claim C5, counterexample: on a constant grayscale image every pixel
passes the threshold, the thresholded image is constant, and the
normalisation of line 86 divides by zero — the result is a NaN raster, not
a binary mask, refuting the claim as universally stated. -/
theorem make_segmented_image_not_always_binary :
    make_segmented_ok (fun _ _ => 7) [[7, 7], [7, 7]] 3 2 = false := by decide

/-- Claim C5, amended: for every grayscale image, Gaussian local-mean
raster, block size and constant such that the thresholded image is not
constant (so the normalisation of line 86 is defined), every pixel of the
segmented image is `0` or `1`, and a pixel is `1` exactly when the source
pixel strictly exceeds the local mean minus the constant. -/
theorem make_segmented_image_binary_of_ok (blur : ℕ → ℕ × ℕ → ℕ)
    (grayscaleimage : Grid ℕ) (BlockSize : ℕ) (Constant : ℤ) (p : ℕ × ℕ)
    (hok : make_segmented_ok blur grayscaleimage BlockSize Constant = true)
    (hp : inBounds grayscaleimage p) :
    (getPix (make_segmented_image blur grayscaleimage BlockSize Constant) 0 p = 0 ∨
     getPix (make_segmented_image blur grayscaleimage BlockSize Constant) 0 p = 1) ∧
    (getPix (make_segmented_image blur grayscaleimage BlockSize Constant) 0 p = 1 ↔
      (blur BlockSize p : ℤ) - Constant < ((getPix grayscaleimage 0 p : ℕ) : ℤ)) := by
  have hok' : joinMin (adaptiveThreshold grayscaleimage 255 (blur BlockSize) Constant) ≠
      joinMax (adaptiveThreshold grayscaleimage 255 (blur BlockSize) Constant) := by
    simpa [make_segmented_ok] using hok
  obtain ⟨hm0, hM255⟩ := seg_min_max grayscaleimage (blur BlockSize) Constant hok'
  have hpseg : inBounds (adaptiveThreshold grayscaleimage 255 (blur BlockSize) Constant) p := by
    refine ⟨?_, ?_⟩
    · unfold adaptiveThreshold
      rw [length_mkGrid]; exact hp.1
    · unfold adaptiveThreshold
      rw [getD_mkGrid _ _ _ _ hp.1]
      simpa using hp.2
  have hpix : getPix (make_segmented_image blur grayscaleimage BlockSize Constant) 0 p =
      (((getPix (adaptiveThreshold grayscaleimage 255 (blur BlockSize) Constant) 0 p : ℕ) : ℚ) -
        (joinMin (adaptiveThreshold grayscaleimage 255 (blur BlockSize) Constant) : ℚ)) /
      ((joinMax (adaptiveThreshold grayscaleimage 255 (blur BlockSize) Constant) : ℚ) -
        (joinMin (adaptiveThreshold grayscaleimage 255 (blur BlockSize) Constant) : ℚ)) :=
    getPix_map_map _ _ 0 0 p hpseg
  have hsegpix : getPix (adaptiveThreshold grayscaleimage 255 (blur BlockSize) Constant) 0 p =
      if (blur BlockSize p : ℤ) - Constant < ((getPix grayscaleimage 0 p : ℕ) : ℤ)
      then 255 else 0 := by
    unfold adaptiveThreshold
    exact getPix_mkGrid _ _ _ 0 p hp.1 hp.2
  rw [hpix, hsegpix, hm0, hM255]
  by_cases hc : (blur BlockSize p : ℤ) - Constant < ((getPix grayscaleimage 0 p : ℕ) : ℤ) <;>
    simp [hc]

/-- Witness for the amended C5 at a concrete input: with local mean `100`
and constant `8`, the pixel `255` is segmented to `1`, the pixel `0` to a
value in `0..1`, and the threshold output is not constant. -/
theorem make_segmented_image_binary_witness :
    make_segmented_ok (fun _ _ => 100) [[0], [255]] 3 8 = true ∧
    (getPix (make_segmented_image (fun _ _ => 100) [[0], [255]] 3 8) 0 (1, 0) = 0 ∨
     getPix (make_segmented_image (fun _ _ => 100) [[0], [255]] 3 8) 0 (1, 0) = 1) :=
  ⟨by decide,
   (make_segmented_image_binary_of_ok (fun _ _ => 100) [[0], [255]] 3 8 (1, 0)
      (by decide) (by decide)).1⟩

/-- Claim C6: for every decoded grayscale image whose pixels are not all
equal, `read_image` returns a grid normalised to the full `uint8` range:
its least pixel value is `0` and its greatest is `255`. -/
theorem read_image_full_range (img : Grid ℕ) (hok : read_image_ok img = true) :
    (read_image img).flatten.min? = some 0 ∧ (read_image img).flatten.max? = some 255 := by
  have hok' : joinMin img ≠ joinMax img := by simpa [read_image_ok] using hok
  have hne : img.flatten ≠ [] := by
    intro h
    exact hok' (by simp [joinMin, joinMax, h])
  have hmin := joinMin_spec img hne
  have hmax := joinMax_spec img hne
  have hlt : joinMin img < joinMax img := lt_of_le_of_ne (hmax.2 _ hmin.1) hok'
  have hMm : (0 : ℚ) < (joinMax img : ℚ) - (joinMin img : ℚ) := by
    have h : (joinMin img : ℚ) < (joinMax img : ℚ) := by exact_mod_cast hlt
    linarith
  have hflat : (read_image img).flatten = img.flatten.map (fun v : ℕ =>
      (⌊((v : ℚ) - (joinMin img : ℚ)) /
        ((joinMax img : ℚ) - (joinMin img : ℚ)) * 255⌋).toNat) :=
    (List.map_flatten _ img).symm
  have hfm : (⌊((joinMin img : ℚ) - (joinMin img : ℚ)) /
      ((joinMax img : ℚ) - (joinMin img : ℚ)) * 255⌋).toNat = 0 := by
    simp
  have hfM : (⌊((joinMax img : ℚ) - (joinMin img : ℚ)) /
      ((joinMax img : ℚ) - (joinMin img : ℚ)) * 255⌋).toNat = 255 := by
    rw [div_self (ne_of_gt hMm), one_mul]
    have h255 : ((255 : ℚ)) = ((255 : ℕ) : ℚ) := by norm_num
    rw [h255, Int.floor_natCast]
    rfl
  have hub : ∀ v ∈ img.flatten,
      (⌊((v : ℚ) - (joinMin img : ℚ)) /
        ((joinMax img : ℚ) - (joinMin img : ℚ)) * 255⌋).toNat ≤ 255 := by
    intro v hv
    have h1 : (joinMin img : ℚ) ≤ (v : ℚ) := by exact_mod_cast hmin.2 v hv
    have h2 : (v : ℚ) ≤ (joinMax img : ℚ) := by exact_mod_cast hmax.2 v hv
    have hq : ((v : ℚ) - (joinMin img : ℚ)) /
        ((joinMax img : ℚ) - (joinMin img : ℚ)) ≤ 1 := by
      rw [div_le_one hMm]; linarith
    have hq' : ((v : ℚ) - (joinMin img : ℚ)) /
        ((joinMax img : ℚ) - (joinMin img : ℚ)) * 255 ≤ 255 := by
      calc ((v : ℚ) - (joinMin img : ℚ)) /
          ((joinMax img : ℚ) - (joinMin img : ℚ)) * 255 ≤ 1 * 255 := by
            exact mul_le_mul_of_nonneg_right hq (by norm_num)
        _ = 255 := by norm_num
    have hfl : ⌊((v : ℚ) - (joinMin img : ℚ)) /
        ((joinMax img : ℚ) - (joinMin img : ℚ)) * 255⌋ ≤ (255 : ℤ) := by
      have := Int.floor_le_floor hq'
      simpa using this
    exact Int.toNat_le.mpr hfl
  constructor
  · rw [hflat, natMin?_eq_some_iff]
    exact ⟨List.mem_map.mpr ⟨joinMin img, hmin.1, hfm⟩, fun b _ => Nat.zero_le b⟩
  · rw [hflat, natMax?_eq_some_iff]
    refine ⟨List.mem_map.mpr ⟨joinMax img, hmax.1, hfM⟩, ?_⟩
    intro b hb
    obtain ⟨v, hv, rfl⟩ := List.mem_map.mp hb
    exact hub v hv

/-- Witness for C6 at a concrete input: the two-valued image `[[10, 20]]`
is normalised so that its minimum is `0` and its maximum is `255`. -/
theorem read_image_full_range_witness :
    read_image_ok [[10, 20]] = true ∧
    (read_image [[10, 20]]).flatten.min? = some 0 ∧
    (read_image [[10, 20]]).flatten.max? = some 255 :=
  ⟨by decide, (read_image_full_range [[10, 20]] (by decide)).1,
    (read_image_full_range [[10, 20]] (by decide)).2⟩

/-! Connected-component labelling, `skimage.measure.label(img, connectivity=2)`.

The app labels the inverted, opened mask (app lines 163-171).  `label`
with `connectivity=2` on a 2-D array treats nonzero pixels as foreground
and partitions them into maximal 8-connected components, assigning the
integer labels `1, 2, …` in raster-scan order of each component's first
pixel and `0` to background.  The reference implementation below computes,
for each pixel, the saturation of repeated neighbourhood expansion of its
singleton (the component), represents the component by the least raster
index of its pixels, and numbers components by the rank of their
representative. -/

/-- Foreground test of `label`: a nonzero pixel. -/
def fgB (g : Grid ℚ) (p : ℕ × ℕ) : Bool := decide (getPix g 0 p ≠ 0)

/-- 8-neighbourhood (`connectivity=2`): distinct positions whose rows and
columns each differ by at most one. -/
def nearB (p q : ℕ × ℕ) : Bool :=
  decide (p ≠ q ∧ p.1 ≤ q.1 + 1 ∧ q.1 ≤ p.1 + 1 ∧ p.2 ≤ q.2 + 1 ∧ q.2 ≤ p.2 + 1)

/-- Adjacency: two foreground pixels that are 8-neighbours. -/
def adjB (g : Grid ℚ) (p q : ℕ × ℕ) : Bool := fgB g p && fgB g q && nearB p q

/-- Adjacency as a relation. -/
def Adj (g : Grid ℚ) (p q : ℕ × ℕ) : Prop := adjB g p q = true

instance (g : Grid ℚ) (p q : ℕ × ℕ) : Decidable (Adj g p q) := by
  unfold Adj; infer_instance

/-- Unfolded form of adjacency. -/
theorem adj_iff (g : Grid ℚ) (p q : ℕ × ℕ) :
    Adj g p q ↔ fgB g p = true ∧ fgB g q = true ∧ p ≠ q ∧
      p.1 ≤ q.1 + 1 ∧ q.1 ≤ p.1 + 1 ∧ p.2 ≤ q.2 + 1 ∧ q.2 ≤ p.2 + 1 := by
  simp [Adj, adjB, nearB, Bool.and_eq_true, decide_eq_true_eq, and_assoc]

/-- Adjacency is symmetric. -/
theorem adj_symm (g : Grid ℚ) : Symmetric (Adj g) := by
  intro p q h
  rw [adj_iff] at h ⊢
  obtain ⟨h1, h2, h3, h4, h5, h6, h7⟩ := h
  exact ⟨h2, h1, Ne.symm h3, h5, h4, h7, h6⟩

/-- A foreground pixel is in bounds. -/
theorem fgB_inBounds (g : Grid ℚ) (p : ℕ × ℕ) (h : fgB g p = true) :
    p.1 < g.length ∧ p.2 < (g.getD p.1 []).length := by
  by_cases h1 : p.1 < g.length
  · refine ⟨h1, ?_⟩
    by_cases h2 : p.2 < (g.getD p.1 []).length
    · exact h2
    · exfalso
      have : getPix g 0 p = 0 := by
        unfold getPix
        rw [List.getD_eq_getElem?_getD, List.getElem?_eq_none (by omega)]
        rfl
      simp [fgB, this] at h
  · exfalso
    have : getPix g 0 p = 0 := by
      unfold getPix
      rw [List.getD_eq_getElem?_getD g p.1 [], List.getElem?_eq_none (by omega)]
      rfl
    simp [fgB, this] at h

/-- Every member of a list of naturals is at most its `foldr max 0`. -/
theorem le_foldr_max (l : List ℕ) (x : ℕ) (hx : x ∈ l) : x ≤ l.foldr max 0 := by
  induction l with
  | nil => simp at hx
  | cons a t ih =>
    rw [List.foldr_cons]
    rcases List.mem_cons.mp hx with rfl | h
    · exact le_max_left _ _
    · exact le_trans (ih h) (le_max_right _ _)

/-- Each row is at most `cols` wide. -/
theorem rowlen_le_cols {α : Type} (g : Grid α) (i : ℕ) (hi : i < g.length) :
    (g.getD i []).length ≤ cols g := by
  have hmem : (g.getD i []).length ∈ g.map List.length := by
    rw [List.getD_eq_getElem g [] hi]
    exact List.mem_map.mpr ⟨g[i], List.getElem_mem hi, rfl⟩
  exact le_foldr_max _ _ hmem

/-- The finite set of foreground pixels of an image. -/
def allFg (g : Grid ℚ) : Finset (ℕ × ℕ) :=
  (Finset.range (rows g) ×ˢ Finset.range (cols g)).filter fun p => fgB g p = true

/-- Membership in `allFg` is just being a foreground pixel. -/
theorem mem_allFg (g : Grid ℚ) (p : ℕ × ℕ) : p ∈ allFg g ↔ fgB g p = true := by
  unfold allFg
  rw [Finset.mem_filter, Finset.mem_product, Finset.mem_range, Finset.mem_range]
  constructor
  · exact fun h => h.2
  · intro h
    obtain ⟨h1, h2⟩ := fgB_inBounds g p h
    exact ⟨⟨h1, lt_of_lt_of_le h2 (rowlen_le_cols g p.1 h1)⟩, h⟩

/-- One round of region growing: add every foreground pixel adjacent to
the current set. -/
def expandCC (g : Grid ℚ) (s : Finset (ℕ × ℕ)) : Finset (ℕ × ℕ) :=
  s ∪ (allFg g).filter fun q => ∃ p ∈ s, Adj g p q

/-- The 8-connected component of `p`: region growing run to saturation
(the pixel count of the image bounds every chain). -/
def componentOf (g : Grid ℚ) (p : ℕ × ℕ) : Finset (ℕ × ℕ) :=
  (expandCC g)^[rows g * cols g + 1] {p}

/-- Growing only adds pixels. -/
theorem subset_expandCC (g : Grid ℚ) (s : Finset (ℕ × ℕ)) : s ⊆ expandCC g s :=
  Finset.subset_union_left

/-- Iterates of region growing form an increasing chain. -/
theorem iterate_expandCC_mono (g : Grid ℚ) (s : Finset (ℕ × ℕ)) {k m : ℕ}
    (hkm : k ≤ m) : (expandCC g)^[k] s ⊆ (expandCC g)^[m] s := by
  induction m with
  | zero =>
    have : k = 0 := by omega
    subst this
    exact Finset.Subset.refl _
  | succ m ih =>
    rcases Nat.lt_or_ge k (m + 1) with h | h
    · have h1 := ih (by omega)
      rw [Function.iterate_succ_apply']
      exact Finset.Subset.trans h1 (subset_expandCC g _)
    · have : k = m + 1 := by omega
      subst this
      exact Finset.Subset.refl _

/-- Iterates stay inside the foreground plus the seed. -/
theorem iterate_expandCC_subset (g : Grid ℚ) (p : ℕ × ℕ) (k : ℕ) :
    (expandCC g)^[k] {p} ⊆ insert p (allFg g) := by
  induction k with
  | zero => simp
  | succ k ih =>
    rw [Function.iterate_succ_apply']
    intro q hq
    rw [expandCC, Finset.mem_union] at hq
    rcases hq with h | h
    · exact ih h
    · exact Finset.mem_insert_of_mem (Finset.mem_of_mem_filter q h)

/-- Everything the growth reaches is genuinely connected to the seed. -/
theorem iterate_expandCC_sound (g : Grid ℚ) (p : ℕ × ℕ) (k : ℕ) (q : ℕ × ℕ)
    (hq : q ∈ (expandCC g)^[k] {p}) : Relation.ReflTransGen (Adj g) p q := by
  induction k generalizing q with
  | zero =>
    simp only [Function.iterate_zero, id_eq, Finset.mem_singleton] at hq
    subst hq
    exact Relation.ReflTransGen.refl
  | succ k ih =>
    rw [Function.iterate_succ_apply', expandCC, Finset.mem_union] at hq
    rcases hq with h | h
    · exact ih q h
    · rw [Finset.mem_filter] at h
      obtain ⟨x, hx, hadj⟩ := h.2
      exact Relation.ReflTransGen.tail (ih x hx) hadj

/-- One growing round absorbs any pixel adjacent to the current set. -/
theorem expandCC_step (g : Grid ℚ) (s : Finset (ℕ × ℕ)) (x q : ℕ × ℕ)
    (hx : x ∈ s) (hadj : Adj g x q) : q ∈ expandCC g s := by
  rw [expandCC, Finset.mem_union, Finset.mem_filter]
  right
  refine ⟨(mem_allFg g q).mpr ?_, x, hx, hadj⟩
  rw [adj_iff] at hadj
  exact hadj.2.1

/-- A fixed point of one growing round is a fixed point of all further
rounds. -/
theorem iterate_expandCC_fixed (g : Grid ℚ) (s : Finset (ℕ × ℕ))
    (hfix : expandCC g s = s) (m : ℕ) : (expandCC g)^[m] s = s := by
  induction m with
  | zero => rfl
  | succ m ih => rw [Function.iterate_succ_apply', ih, hfix]

/-- Strictly growing iterates have cardinality at least the step count
plus one. -/
theorem iterate_expandCC_card (g : Grid ℚ) (p : ℕ × ℕ) (k : ℕ)
    (hgrow : ∀ j < k, (expandCC g)^[j + 1] {p} ≠ (expandCC g)^[j] {p}) :
    k + 1 ≤ ((expandCC g)^[k] {p}).card := by
  induction k with
  | zero => simp
  | succ k ih =>
    have h1 := ih fun j hj => hgrow j (by omega)
    have h2 : (expandCC g)^[k] {p} ⊂ (expandCC g)^[k + 1] {p} := by
      rw [Function.iterate_succ_apply']
      refine ssubset_iff_subset_ne.mpr ⟨subset_expandCC g _, ?_⟩
      intro h
      exact hgrow k (by omega) (by rw [Function.iterate_succ_apply', ← h])
    have := Finset.card_lt_card h2
    omega

/-- Region growing saturates within the pixel-count fuel: the component is
a fixed point of one more round. -/
theorem componentOf_saturated (g : Grid ℚ) (p : ℕ × ℕ) :
    expandCC g (componentOf g p) = componentOf g p := by
  unfold componentOf
  set N := rows g * cols g + 1 with hN
  by_cases hgrow : ∀ j < N, (expandCC g)^[j + 1] {p} ≠ (expandCC g)^[j] {p}
  · exfalso
    have hcard := iterate_expandCC_card g p N hgrow
    have hsub := iterate_expandCC_subset g p N
    have hb : ((expandCC g)^[N] {p}).card ≤ (insert p (allFg g)).card :=
      Finset.card_le_card hsub
    have hins : (insert p (allFg g)).card ≤ (allFg g).card + 1 :=
      Finset.card_insert_le p (allFg g)
    have hfg : (allFg g).card ≤ rows g * cols g := by
      calc (allFg g).card ≤ (Finset.range (rows g) ×ˢ Finset.range (cols g)).card :=
            Finset.card_le_card (Finset.filter_subset _ _)
        _ = rows g * cols g := by
            rw [Finset.card_product, Finset.card_range, Finset.card_range]
    omega
  · push_neg at hgrow
    obtain ⟨j, hj, hfix⟩ := hgrow
    have hfix' : expandCC g ((expandCC g)^[j] {p}) = (expandCC g)^[j] {p} := by
      have h2 := hfix
      rwa [Function.iterate_succ_apply'] at h2
    have h1 : (expandCC g)^[N] {p} = (expandCC g)^[j] {p} := by
      have : N = j + (N - j) := by omega
      rw [this, Nat.add_comm, Function.iterate_add_apply]
      exact iterate_expandCC_fixed g _ hfix' (N - j)
    rw [h1, hfix']

/-- The seed belongs to its component. -/
theorem mem_componentOf_self (g : Grid ℚ) (p : ℕ × ℕ) : p ∈ componentOf g p := by
  unfold componentOf
  exact iterate_expandCC_mono g {p} (Nat.zero_le _) (Finset.mem_singleton_self p)

/-- Completeness: everything connected to the seed is in its component. -/
theorem mem_componentOf_of_rtg (g : Grid ℚ) (p q : ℕ × ℕ)
    (h : Relation.ReflTransGen (Adj g) p q) : q ∈ componentOf g p := by
  induction h with
  | refl => exact mem_componentOf_self g p
  | tail _ hbc ih =>
    have h1 := expandCC_step g (componentOf g p) _ _ ih hbc
    rwa [componentOf_saturated g p] at h1

/-- Soundness: everything in the component is connected to the seed. -/
theorem rtg_of_mem_componentOf (g : Grid ℚ) (p q : ℕ × ℕ)
    (h : q ∈ componentOf g p) : Relation.ReflTransGen (Adj g) p q := by
  unfold componentOf at h
  exact iterate_expandCC_sound g p _ q h

/-- A chain starting at a foreground pixel ends at a foreground pixel. -/
theorem rtg_fg (g : Grid ℚ) (p q : ℕ × ℕ) (hp : fgB g p = true)
    (h : Relation.ReflTransGen (Adj g) p q) : fgB g q = true := by
  induction h with
  | refl => exact hp
  | tail _ hbc _ => exact ((adj_iff g _ _).mp hbc).2.1

/-- Any member of a component generates the same component. -/
theorem componentOf_congr (g : Grid ℚ) (p q : ℕ × ℕ) (_hp : fgB g p = true)
    (hq : q ∈ componentOf g p) : componentOf g q = componentOf g p := by
  have hpq : Relation.ReflTransGen (Adj g) p q := rtg_of_mem_componentOf g p q hq
  have hqp : Relation.ReflTransGen (Adj g) q p :=
    Relation.ReflTransGen.symmetric (adj_symm g) hpq
  apply Finset.Subset.antisymm
  · intro x hx
    exact mem_componentOf_of_rtg g p x
      (Relation.ReflTransGen.trans hpq (rtg_of_mem_componentOf g q x hx))
  · intro x hx
    exact mem_componentOf_of_rtg g q x
      (Relation.ReflTransGen.trans hqp (rtg_of_mem_componentOf g p x hx))

/-- A foreground seed's component consists of foreground pixels. -/
theorem componentOf_subset_allFg (g : Grid ℚ) (p : ℕ × ℕ) (hp : fgB g p = true) :
    componentOf g p ⊆ allFg g := by
  intro x hx
  have h := iterate_expandCC_subset g p (rows g * cols g + 1) hx
  rw [Finset.mem_insert] at h
  rcases h with rfl | h2
  · exact (mem_allFg g x).mpr hp
  · exact h2

/-- Raster-scan index of a position. -/
def scanIdx (g : Grid ℚ) (p : ℕ × ℕ) : ℕ := p.1 * cols g + p.2

/-- The raster-scan index is injective on foreground pixels. -/
theorem scanIdx_inj (g : Grid ℚ) (p q : ℕ × ℕ) (hp : p ∈ allFg g) (hq : q ∈ allFg g)
    (h : scanIdx g p = scanIdx g q) : p = q := by
  have hpb : fgB g p = true := (mem_allFg g p).mp hp
  have hqb : fgB g q = true := (mem_allFg g q).mp hq
  have hp2 : p.2 < cols g :=
    lt_of_lt_of_le (fgB_inBounds g p hpb).2 (rowlen_le_cols g p.1 (fgB_inBounds g p hpb).1)
  have hq2 : q.2 < cols g :=
    lt_of_lt_of_le (fgB_inBounds g q hqb).2 (rowlen_le_cols g q.1 (fgB_inBounds g q hqb).1)
  have hC : 0 < cols g := lt_of_le_of_lt (Nat.zero_le _) hp2
  unfold scanIdx at h
  have h1 : p.1 = q.1 := by
    have e1 : (p.1 * cols g + p.2) / cols g = p.1 := by
      rw [mul_comm, Nat.mul_add_div hC, Nat.div_eq_of_lt hp2, Nat.add_zero]
    have e2 : (q.1 * cols g + q.2) / cols g = q.1 := by
      rw [mul_comm, Nat.mul_add_div hC, Nat.div_eq_of_lt hq2, Nat.add_zero]
    rw [← e1, ← e2, h]
  have h2 : p.2 = q.2 := by
    rw [h1] at h
    omega
  exact Prod.ext h1 h2

/-- Components are nonempty. -/
theorem componentOf_nonempty (g : Grid ℚ) (p : ℕ × ℕ) : (componentOf g p).Nonempty :=
  ⟨p, mem_componentOf_self g p⟩

/-- The representative of a pixel's component: the least raster-scan index
among its pixels (the first pixel of the component a raster scan meets,
which is where skimage's labelling starts the component). -/
def repKey (g : Grid ℚ) (p : ℕ × ℕ) : ℕ :=
  ((componentOf g p).image (scanIdx g)).min'
    (Finset.Nonempty.image (componentOf_nonempty g p) (scanIdx g))

/-- The representative index is attained by a component member. -/
theorem repKey_exists (g : Grid ℚ) (p : ℕ × ℕ) :
    ∃ a ∈ componentOf g p, scanIdx g a = repKey g p := by
  have h := Finset.min'_mem ((componentOf g p).image (scanIdx g))
    (Finset.Nonempty.image (componentOf_nonempty g p) (scanIdx g))
  rwa [Finset.mem_image] at h

/-- The set of component representatives of an image. -/
def allReps (g : Grid ℚ) : Finset ℕ := (allFg g).image (repKey g)

/-- The label of a pixel: background pixels get `0`; a foreground pixel
gets one plus the number of components whose representative precedes its
own in raster-scan order — i.e. consecutive integers from `1` in the order
the scan first meets each component. -/
def labelAt (g : Grid ℚ) (p : ℕ × ℕ) : ℕ :=
  if fgB g p = true then 1 + ((allReps g).filter fun r => r < repKey g p).card else 0

/-- Embedding of `skimage.measure.label(img, connectivity=2)`: the grid of labels. -/
def labelCC (g : Grid ℚ) : Grid ℕ :=
  mkGrid g.length (fun i => (g.getD i []).length) fun p => labelAt g p

/-- Strictly smaller representatives have strictly smaller rank. -/
theorem rank_lt_of_lt (g : Grid ℚ) (r1 r2 : ℕ) (h1 : r1 ∈ allReps g) (hlt : r1 < r2) :
    ((allReps g).filter fun r => r < r1).card <
      ((allReps g).filter fun r => r < r2).card := by
  apply Finset.card_lt_card
  refine ssubset_iff_subset_ne.mpr ⟨?_, ?_⟩
  · intro x hx
    rw [Finset.mem_filter] at hx ⊢
    exact ⟨hx.1, lt_trans hx.2 hlt⟩
  · intro he
    have hmem : r1 ∈ (allReps g).filter fun r => r < r2 :=
      Finset.mem_filter.mpr ⟨h1, hlt⟩
    rw [← he, Finset.mem_filter] at hmem
    exact lt_irrefl r1 hmem.2

/-- Equal ranks force equal representatives. -/
theorem rank_inj (g : Grid ℚ) (r1 r2 : ℕ) (h1 : r1 ∈ allReps g) (h2 : r2 ∈ allReps g)
    (h : ((allReps g).filter fun r => r < r1).card =
         ((allReps g).filter fun r => r < r2).card) : r1 = r2 := by
  rcases lt_trichotomy r1 r2 with hlt | he | hlt
  · exact absurd h (by have := rank_lt_of_lt g r1 r2 h1 hlt; omega)
  · exact he
  · exact absurd h (by have := rank_lt_of_lt g r2 r1 h2 hlt; omega)

/-- The value of `min'` only depends on the underlying finset. -/
theorem min'_congr_set {s t : Finset ℕ} (h : s = t) (hs : s.Nonempty) (ht : t.Nonempty) :
    s.min' hs = t.min' ht := by subst h; rfl

/-- Connected foreground pixels share their representative. -/
theorem repKey_eq_of_rtg (g : Grid ℚ) (p q : ℕ × ℕ) (hp : fgB g p = true)
    (h : Relation.ReflTransGen (Adj g) p q) : repKey g p = repKey g q := by
  have hq' : q ∈ componentOf g p := mem_componentOf_of_rtg g p q h
  have hcomp : componentOf g q = componentOf g p := componentOf_congr g p q hp hq'
  unfold repKey
  exact min'_congr_set (by rw [hcomp]) _ _

/-- The central property of the labelling: two foreground pixels carry the
same label exactly when they are 8-connected. -/
theorem labelAt_eq_iff (g : Grid ℚ) (p q : ℕ × ℕ) (hp : fgB g p = true)
    (hq : fgB g q = true) :
    labelAt g p = labelAt g q ↔ Relation.ReflTransGen (Adj g) p q := by
  constructor
  · intro h
    rw [labelAt, labelAt, if_pos hp, if_pos hq] at h
    have hcard : ((allReps g).filter fun r => r < repKey g p).card =
        ((allReps g).filter fun r => r < repKey g q).card := by omega
    have hr1 : repKey g p ∈ allReps g :=
      Finset.mem_image.mpr ⟨p, (mem_allFg g p).mpr hp, rfl⟩
    have hr2 : repKey g q ∈ allReps g :=
      Finset.mem_image.mpr ⟨q, (mem_allFg g q).mpr hq, rfl⟩
    have hreq := rank_inj g _ _ hr1 hr2 hcard
    obtain ⟨a, ha, hsa⟩ := repKey_exists g p
    obtain ⟨b, hb, hsb⟩ := repKey_exists g q
    have hab : a = b := by
      apply scanIdx_inj g a b (componentOf_subset_allFg g p hp ha)
        (componentOf_subset_allFg g q hq hb)
      rw [hsa, hsb, hreq]
    have hcp : componentOf g a = componentOf g p := componentOf_congr g p a hp ha
    have hcq : componentOf g b = componentOf g q := componentOf_congr g q b hq hb
    have hcomp : componentOf g p = componentOf g q := by rw [← hcp, hab, hcq]
    have hqp : q ∈ componentOf g p := by
      rw [hcomp]
      exact mem_componentOf_self g q
    exact rtg_of_mem_componentOf g p q hqp
  · intro h
    rw [labelAt, labelAt, if_pos hp, if_pos hq, repKey_eq_of_rtg g p q hp h]

/-! Morphological opening and inversion (app lines 157-167).

`morphologyEx(mask, MORPH_OPEN, np.ones((5,5)))` is erosion followed by
dilation with a flat `5 × 5` kernel: a minimum filter then a maximum
filter over the window, out-of-image positions not participating (the
default border value is `+∞` for erosion and `-∞` for dilation). -/

/-- The in-bounds positions of the `5 × 5` window centred at `p` (the `±2`
offsets clip at zero; duplicates are harmless under `min`/`max`). -/
def window5 {α : Type} (g : Grid α) (p : ℕ × ℕ) : List (ℕ × ℕ) :=
  ((List.range 5).flatMap fun di => (List.range 5).map fun dj =>
    (p.1 + di - 2, p.2 + dj - 2)).filter fun q => decide (inBounds g q)

/-- Minimum of the window (erosion at `p`). -/
def erodePix (g : Grid ℚ) (p : ℕ × ℕ) : ℚ :=
  ((window5 g p).map (getPix g 0)).foldr min (getPix g 0 p)

/-- Embedding of `cv2.erode` with the flat `5 × 5` kernel. -/
def erode (g : Grid ℚ) : Grid ℚ :=
  mkGrid g.length (fun i => (g.getD i []).length) (erodePix g)

/-- Maximum of the window (dilation at `p`). -/
def dilatePix (g : Grid ℚ) (p : ℕ × ℕ) : ℚ :=
  ((window5 g p).map (getPix g 0)).foldr max (getPix g 0 p)

/-- Embedding of `cv2.dilate` with the flat `5 × 5` kernel. -/
def dilate (g : Grid ℚ) : Grid ℚ :=
  mkGrid g.length (fun i => (g.getD i []).length) (dilatePix g)

/-- Opening, `morphologyEx(_, MORPH_OPEN, _)`: erosion then dilation (app line 163). -/
def opening (g : Grid ℚ) : Grid ℚ := dilate (erode g)

/-- Inversion `inverted_opened = 1 - opened` (app line 167). -/
def invertImg (g : Grid ℚ) : Grid ℚ := g.map (List.map fun (v : ℚ) => 1 - v)

/-- The Cleaner/Labeler stage (app lines 163-171): open, invert, label. -/
def cleaner_labeler (mask : Grid ℚ) : Grid ℕ := labelCC (invertImg (opening mask))

/-- The resizer `resize_image` (modules.py lines 35-46): fixed new width `674`, new
height `int(shape[0] * (674 / shape[1]))` — natural division models the
float truncation — and pixel values from `cv2.resize`'s INTER_AREA
resampling, an external float computation abstracted as `sample`. -/
def resize_image (sample : ℕ × ℕ → ℕ) (image : Grid ℕ) : Grid ℕ :=
  mkGrid (rows image * 674 / cols image) (fun _ => 674) sample

/-- The fixed size limit (app line 40). -/
def allowed_image_size : ℕ := 1000

/-- Everything the app computes after the size check (app lines 150-175):
resize happened already, then segment, open, invert, label, call
`counts_spots` and attempt the 3-way unpacking of its result. -/
structure AppOut where
  img_scaled : Grid ℕ
  mask_image : Grid ℚ
  opened : Grid ℚ
  inverted_opened : Grid ℚ
  labeled_image : Grid ℕ
  counts_ret : List PyVal
  unpack175 : Option (PyVal × PyVal × PyVal)

/-- App lines 153-175 in order: threshold, open, invert, label, filter/draw. -/
def pipelineStages (blur : ℕ → ℕ × ℕ → ℕ) (rad : ℕ → ℕ)
    (paint : RGB → ℕ × ℕ → ℕ → ℕ × ℕ × ℕ → RGB) (resized : Grid ℕ)
    (BlockSize : ℕ) (Constant minA maxA : ℤ) : AppOut :=
  let mask_image := make_segmented_image blur resized BlockSize Constant
  let opened := opening mask_image
  let inverted_opened := invertImg opened
  let labeled_image := labelCC inverted_opened
  let counts_ret := counts_spots_ret rad paint labeled_image resized minA maxA
  ⟨resized, mask_image, opened, inverted_opened, labeled_image, counts_ret,
    unpack3 counts_ret⟩

/-- App lines 143-175: `read_image`, the size check of lines 145-147
(`st.error` and `st.stop` when either dimension exceeds the limit), then
resize and the pipeline.  The `Except.error` branch is the app's only
error branch. -/
def runApp (blur : ℕ → ℕ × ℕ → ℕ) (rad : ℕ → ℕ)
    (paint : RGB → ℕ × ℕ → ℕ → ℕ × ℕ × ℕ → RGB) (sample : ℕ × ℕ → ℕ)
    (decoded : Grid ℕ) (BlockSize : ℕ) (Constant minA maxA : ℤ) :
    Except String AppOut :=
  let img_scaled := read_image decoded
  if rows img_scaled > allowed_image_size ∨ cols img_scaled > allowed_image_size then
    Except.error
      "Uploaded image exceeds the allowed image size. Please reduce the image size to 1000x1000."
  else
    Except.ok (pipelineStages blur rad paint (resize_image sample img_scaled)
      BlockSize Constant minA maxA)

/-- The loader `read_image` preserves the shape of the decoded image. -/
theorem read_image_shape (img : Grid ℕ) :
    rows (read_image img) = rows img ∧ cols (read_image img) = cols img := by
  constructor
  · simp [read_image, rows]
  · unfold cols read_image
    rw [List.map_map]
    congr 1
    apply List.map_congr_left
    intro row _
    simp

/-- Claim C3: the app rejects an uploaded image — reports an error and
stops before segmentation — exactly when a dimension of the decoded
grayscale image exceeds the fixed limit of 1000 pixels; and the size
check is the only error branch: every error the app can produce is that
one message, produced under that condition. -/
theorem app_rejects_iff_oversize (blur : ℕ → ℕ × ℕ → ℕ) (rad : ℕ → ℕ)
    (paint : RGB → ℕ × ℕ → ℕ → ℕ × ℕ × ℕ → RGB) (sample : ℕ × ℕ → ℕ)
    (decoded : Grid ℕ) (BlockSize : ℕ) (Constant minA maxA : ℤ) :
    ((∃ e, runApp blur rad paint sample decoded BlockSize Constant minA maxA =
        Except.error e) ↔
      rows decoded > allowed_image_size ∨ cols decoded > allowed_image_size) ∧
    (∀ e, runApp blur rad paint sample decoded BlockSize Constant minA maxA =
        Except.error e →
      e = "Uploaded image exceeds the allowed image size. Please reduce the image size to 1000x1000." ∧
      (rows decoded > allowed_image_size ∨ cols decoded > allowed_image_size)) := by
  have hsh := read_image_shape decoded
  unfold runApp
  by_cases hc : rows (read_image decoded) > allowed_image_size ∨
      cols (read_image decoded) > allowed_image_size
  · rw [if_pos hc]
    rw [hsh.1, hsh.2] at hc
    constructor
    · exact ⟨fun _ => hc, fun _ => ⟨_, rfl⟩⟩
    · intro e he
      rw [Except.error.injEq] at he
      exact ⟨he.symm, hc⟩
  · rw [if_neg hc]
    rw [hsh.1, hsh.2] at hc
    constructor
    · constructor
      · intro ⟨e, he⟩
        exact absurd he (by simp)
      · intro h
        exact absurd h hc
    · intro e he
      exact absurd he (by simp)

/-- Witness for C3 at a concrete input: a 1001-row image is rejected with
the size message, and a small image is accepted. -/
theorem app_rejects_iff_oversize_witness :
    (∃ e, runApp (fun _ _ => 0) (fun _ => 0) (fun i _ _ _ => i) (fun _ => 0)
      (List.replicate 1001 [5]) 31 8 10 1000 = Except.error e) ∧
    ¬ (∃ e, runApp (fun _ _ => 0) (fun _ => 0) (fun i _ _ _ => i) (fun _ => 0)
      [[5, 7]] 31 8 10 1000 = Except.error e) :=
  ⟨(app_rejects_iff_oversize (fun _ _ => 0) (fun _ => 0) (fun i _ _ _ => i) (fun _ => 0)
      (List.replicate 1001 [5]) 31 8 10 1000).1.mpr
      (Or.inl (by
        unfold rows allowed_image_size
        rw [List.length_replicate]
        omega)),
   fun h =>
    absurd ((app_rejects_iff_oversize (fun _ _ => 0) (fun _ => 0) (fun i _ _ _ => i)
      (fun _ => 0) [[5, 7]] 31 8 10 1000).1.mp h) (by decide)⟩

/-- The label grid evaluates to `labelAt` at in-bounds positions. -/
theorem getPix_labelCC (img : Grid ℚ) (p : ℕ × ℕ) (hp : inBounds img p) :
    getPix (labelCC img) 0 p = labelAt img p := by
  unfold labelCC
  exact getPix_mkGrid _ _ _ 0 p hp.1 hp.2

/-- Claim C7: the Cleaner/Labeler stage applies morphological opening,
then inverts the mask, then labels 8-connected components; the labelled
stage output of the pipeline is exactly `label (invert (open mask))`, the
pipeline runs threshold → open → label → filter/draw in that order, the
inversion maps a pixel `v` to `1 - v` (so an opened pixel `0` becomes
foreground `1`), background pixels get label `0`, foreground pixels get a
positive label, and two foreground pixels share a label exactly when they
are 8-connected — each maximal connected set carries one identifier. -/
theorem pipeline_cleaner_labeler_spec (blur : ℕ → ℕ × ℕ → ℕ) (rad : ℕ → ℕ)
    (paint : RGB → ℕ × ℕ → ℕ → ℕ × ℕ × ℕ → RGB) (resized : Grid ℕ)
    (BlockSize : ℕ) (Constant minA maxA : ℤ) (img : Grid ℚ) (p q r : ℕ × ℕ)
    (hp : fgB img p = true) (hq : fgB img q = true) :
    (pipelineStages blur rad paint resized BlockSize Constant minA maxA).labeled_image =
      cleaner_labeler
        (pipelineStages blur rad paint resized BlockSize Constant minA maxA).mask_image ∧
    (pipelineStages blur rad paint resized BlockSize Constant minA maxA).mask_image =
      make_segmented_image blur resized BlockSize Constant ∧
    (pipelineStages blur rad paint resized BlockSize Constant minA maxA).counts_ret =
      counts_spots_ret rad paint
        (pipelineStages blur rad paint resized BlockSize Constant minA maxA).labeled_image
        resized minA maxA ∧
    cleaner_labeler img = labelCC (invertImg (opening img)) ∧
    opening img = dilate (erode img) ∧
    (inBounds img r → getPix (invertImg img) 0 r = 1 - getPix img 0 r) ∧
    (inBounds img r → fgB img r = false → getPix (labelCC img) 0 r = 0) ∧
    1 ≤ getPix (labelCC img) 0 p ∧
    (getPix (labelCC img) 0 p = getPix (labelCC img) 0 q ↔
      Relation.ReflTransGen (Adj img) p q) := by
  have hpb := fgB_inBounds img p hp
  have hqb := fgB_inBounds img q hq
  refine ⟨rfl, rfl, rfl, rfl, rfl, ?_, ?_, ?_, ?_⟩
  · intro hr
    exact getPix_map_map (fun v : ℚ => 1 - v) img 0 0 r hr
  · intro hr hbg
    rw [getPix_labelCC img r hr, labelAt, if_neg (by simp [hbg])]
  · rw [getPix_labelCC img p hpb, labelAt, if_pos hp]
    omega
  · rw [getPix_labelCC img p hpb, getPix_labelCC img q hqb]
    exact labelAt_eq_iff img p q hp hq

/-- Witness for C7 at a concrete input: on the two-pixel foreground image
`[[1, 1]]` both pixels are foreground, carry a positive label, and the
label equality is equivalent to their 8-connectivity. -/
theorem pipeline_cleaner_labeler_spec_witness :
    fgB [[(1 : ℚ), 1]] (0, 0) = true ∧
    1 ≤ getPix (labelCC [[(1 : ℚ), 1]]) 0 (0, 0) ∧
    (getPix (labelCC [[(1 : ℚ), 1]]) 0 (0, 0) = getPix (labelCC [[(1 : ℚ), 1]]) 0 (0, 1) ↔
      Relation.ReflTransGen (Adj [[(1 : ℚ), 1]]) (0, 0) (0, 1)) :=
  ⟨by decide,
   (pipeline_cleaner_labeler_spec (fun _ _ => 0) (fun _ => 0) (fun i _ _ _ => i) [[5]]
      3 2 0 10 [[(1 : ℚ), 1]] (0, 0) (0, 1) (0, 0) (by decide) (by decide)).2.2.2.2.2.2.2.1,
   (pipeline_cleaner_labeler_spec (fun _ _ => 0) (fun _ => 0) (fun i _ _ _ => i) [[5]]
      3 2 0 10 [[(1 : ℚ), 1]] (0, 0) (0, 1) (0, 0) (by decide) (by decide)).2.2.2.2.2.2.2.2⟩
